import Mathlib

/- Shallow embedding of src/minibrain/burstcounter.py.

   Real valued samples are modelled as exact rationals; machine floats are
   modelled as exact rational arithmetic.  The numpy standard deviation
   rmsdata.std() is the square root of the mean squared deviation, which is
   irrational in general, so every comparison of a sample a against c * std
   that the code performs is decided by squaring: writing w = c^2 * variance,
     a <  c * std   iff   a < 0  or  a^2 < w
     a >  c * std   iff   0 <= a and w < a^2
     a >= c * std   iff   0 <= a and w <= a^2
   which is exact because c * std = sqrt w >= 0.  This keeps every definition
   computable, so concrete runs of the detector can be evaluated by decide. -/

attribute [local semireducible] Rat.ofScientific Rat.mul Rat.inv Rat.add Rat.sub

set_option maxRecDepth 40000

/-- Python int() applied to a rational: truncation toward zero. -/
def pyInt (q : ℚ) : ℤ := if q < 0 then ⌈q⌉ else ⌊q⌋

/-- Mean of a list of rationals (numpy mean; division by zero gives 0). -/
def mean (xs : List ℚ) : ℚ := xs.sum / (xs.length : ℚ)

/-- Mean squared deviation: the square of numpy rmsdata.std(). -/
def variance (xs : List ℚ) : ℚ :=
  (xs.map (fun a => (a - mean xs) ^ 2)).sum / (xs.length : ℚ)

/-- Decides a < sqrt w for w >= 0 (comparison against a std threshold). -/
def ltSqrt (a w : ℚ) : Bool := decide (a < 0) || decide (a ^ 2 < w)

/-- Decides a > sqrt w for w >= 0 (comparison against a std threshold). -/
def gtSqrt (a w : ℚ) : Bool := decide (0 ≤ a) && decide (w < a ^ 2)

/-- Decides a >= sqrt w for w >= 0 (comparison against a std threshold). -/
def geSqrt (a w : ℚ) : Bool := decide (0 ≤ a) && decide (w ≤ a ^ 2)

/-- Index normalisation of the Python slice a[start:stop:-1] for step -1 and a
list of length n: a negative index is shifted by n and then clamped to the
bounds -1 and n-1 used by CPython for negative steps. -/
def sliceRevNorm (n i : ℤ) : ℤ := if i < 0 then max (i + n) (-1) else min i (n - 1)

/-- Elements a[s], a[s-1], ..., m of them, read downward from index s. -/
def sliceTake (a : List ℚ) : ℤ → ℕ → List ℚ
  | _, 0 => []
  | s, m + 1 => a.getD s.toNat 0 :: sliceTake a (s - 1) m

/-- Python slice a[s:e:-1]: after normalisation of both endpoints the slice
reads indices s down to e+1 (empty unless s > e). -/
def sliceRev (a : List ℚ) (s e : ℤ) : List ℚ :=
  sliceTake a (sliceRevNorm (a.length : ℤ) s)
    ((sliceRevNorm (a.length : ℤ) s - sliceRevNorm (a.length : ℤ) e).toNat)

/-- Index of the first element satisfying p: models val[0] after
val, = np.where(pred(tmp)), together with the surrounding try/except. -/
def firstIdxWhere (p : ℚ → Bool) : List ℚ → Option ℕ
  | [] => none
  | a :: as => if p a then some 0 else (firstIdxWhere p as).map (fun k => k + 1)

/-- Successive differences of a list: np.diff. -/
def diff (l : List ℤ) : List ℤ := (l.zip l.tail).map (fun ab => ab.2 - ab.1)

/-- Indices of the elements satisfying p: np.where(p(l))[0]. -/
def whereIdx (p : ℤ → Bool) : List ℤ → List ℕ
  | [] => []
  | a :: as =>
    if p a then 0 :: (whereIdx p as).map (fun i => i + 1)
    else (whereIdx p as).map (fun i => i + 1)

/-- Numpy index normalisation: a negative index i means i + n. -/
def npNorm (n i : ℤ) : ℤ := if i < 0 then i + n else i

/-- Numpy integer fancy indexing p[idxs]: a negative index i means i + len(p);
an index out of bounds raises IndexError, modelled by none. -/
def npIndex (p : List ℕ) : List ℤ → Option (List ℕ)
  | [] => some []
  | i :: is =>
    if 0 ≤ npNorm (p.length : ℤ) i ∧ npNorm (p.length : ℤ) i < (p.length : ℤ) then
      match npIndex p is with
      | some rest => some (p.getD (npNorm (p.length : ℤ) i).toNat 0 :: rest)
      | none => none
    else none

/-- Inner plateau scan of scipy _local_maxima_1d: starting from j, advance
while j < len(x) - 1 and x[j] equals the candidate value v.  The fuel argument
only bounds the recursion; fuel = len(x) always suffices because j grows by one
per step and the scan stops at len(x) - 1. -/
def plateauEndF (x : List ℚ) (v : ℚ) : ℕ → ℕ → ℕ
  | 0, j => j
  | fuel + 1, j =>
    if j < x.length - 1 ∧ x.getD j 0 = v then plateauEndF x v fuel (j + 1) else j

/-- Main loop of scipy _local_maxima_1d over i = 1, ..., len(x)-2: when
x[i-1] < x[i], scan the plateau ahead; if the sample after the plateau is
strictly smaller, the plateau midpoint (i + (ia - 1)) / 2 is a local maximum
and the loop resumes after the plateau.  The fuel argument only bounds the
recursion; fuel = len(x) always suffices because i grows by at least one per
step and the loop stops at len(x) - 1. -/
def lmLoopF (x : List ℚ) : ℕ → ℕ → List ℕ
  | 0, _ => []
  | fuel + 1, i =>
    if i < x.length - 1 then
      if x.getD (i - 1) 0 < x.getD i 0 then
        if x.getD (plateauEndF x (x.getD i 0) x.length (i + 1)) 0 < x.getD i 0 then
          (i + (plateauEndF x (x.getD i 0) x.length (i + 1) - 1)) / 2 ::
            lmLoopF x fuel (plateauEndF x (x.getD i 0) x.length (i + 1) + 1)
        else lmLoopF x fuel (i + 1)
      else lmLoopF x fuel (i + 1)
    else []

/-- Local maxima of a signal: scipy signal.find_peaks before the height
filter. -/
def local_maxima (x : List ℚ) : List ℕ := lmLoopF x x.length 1

/-- The peak set of long_burst: scipy find_peaks(x = rmsdata, height = highthr)
with highthr = 5 * rmsdata.std(); the height filter keeps the local maxima
whose sample is at least sqrt(25 * variance). -/
def peaks (rmsdata : List ℚ) : List ℕ :=
  (local_maxima rmsdata).filter
    (fun m => geSqrt (rmsdata.getD m 0) (25 * variance rmsdata))

/-- Start edge refinement of long_burst: read up to w samples backward from the
provisional start x (the slice rmsdata[x : x - w : -1], which starts at x
itself) and subtract the offset of the first sample below lowthr = sqrt v;
leave x unchanged when no sample of the window is below the threshold. -/
def refine_start (rmsdata : List ℚ) (v : ℚ) (w x : ℤ) : ℤ :=
  match firstIdxWhere (fun t => ltSqrt t v) (sliceRev rmsdata x (x - w)) with
  | some k => x - (k : ℤ)
  | none => x

/-- End edge refinement of long_burst: read the slice rmsdata[x + w : x : -1]
(the w samples after x, farthest first) and add w minus the offset of the
first sample above lowthr = sqrt v; leave x unchanged when no sample of the
window is above the threshold. -/
def refine_end (rmsdata : List ℚ) (v : ℚ) (w x : ℤ) : ℤ :=
  match firstIdxWhere (fun t => gtSqrt t v) (sliceRev rmsdata (x + w) x) with
  | some k => x + (w - (k : ℤ))
  | none => x

/-- Positions (into np.diff(p)) of the gaps between consecutive peaks that are
strictly larger than 1 * srate samples: idx = np.where(dx > 1*srate)[0]. -/
def gapIdx (rmsdata : List ℚ) (srate : ℚ) : List ℕ :=
  whereIdx (fun d => decide (1 * srate < (d : ℚ)))
    (diff ((peaks rmsdata).map (fun (j : ℕ) => (j : ℤ))))

/-- Number of gaps between consecutive peaks strictly larger than one second
of envelope samples. -/
def large_gap_count (rmsdata : List ℚ) (srate : ℚ) : ℕ :=
  (diff ((peaks rmsdata).map (fun (j : ℕ) => (j : ℤ)))).countP
    (fun (d : ℤ) => decide (1 * srate < (d : ℚ)))

/-- Burst.long_burst: detect peaks above 5 std, split them into groups at the
gaps larger than one second, take the first and last peak of each group as the
provisional start and end, refine both edges against lowthr = std and return
the list of (start, end) pairs.  The numpy fancy indexing p[start] and p[end]
raises IndexError when the peak array is empty (index 0, respectively -1, is
then out of bounds); this is modelled by the none result. -/
def long_burst (rmsdata : List ℚ) (srate : ℚ) : Option (List (ℤ × ℤ)) :=
  let v := variance rmsdata
  let p := peaks rmsdata
  let idx := gapIdx rmsdata srate
  match npIndex p ((0 : ℤ) :: idx.map (fun (i : ℕ) => (i : ℤ) + 1)) with
  | none => none
  | some ps =>
    match npIndex p (idx.map (fun (i : ℕ) => (i : ℤ)) ++ [(-1 : ℤ)]) with
    | none => none
    | some pe =>
      let pstart := ps.map (fun (y : ℕ) => refine_start rmsdata v (pyInt ((0.100 : ℚ) * srate)) (y : ℤ))
      let pend := pe.map (fun (y : ℕ) => refine_end rmsdata v (pyInt ((0.250 : ℚ) * srate)) (y : ℤ))
      some (pstart.zip pend)

/-- RMS window length in samples of Burst.__init__: mysrate = srate / 60,
dt = 1 / mysrate, mysegment = 0.005 / dt, window = int(mysegment). -/
def window_samples (srate : ℚ) : ℤ := pyInt ((0.005 : ℚ) / (1 / (srate / 60)))

/-- Window length formula asserted by the spec for the conditioning pipeline:
round(0.005 * new_rate) with new_rate the post decimation rate. -/
def window_samples_spec (srate : ℚ) : ℤ := round ((0.005 : ℚ) * (srate / 60))

/-- Error taxonomy of the spec (section 7). -/
inductive DetectError where
  | invalidParameter : DetectError
  | insufficientData : DetectError
  | indexError : DetectError
deriving DecidableEq

/-- Modelled from the spec: lfp.band_pass is code of this repository that is
not under src/ (module minibrain.lfpmanager).  Per spec sections 1 and 4.1 it
returns a filtered signal of the same length; the filter numerics are left
unspecified by the spec, so the model keeps the samples (no settled claim
depends on the filtered values). -/
def band_pass (data : List ℚ) (_low _high _srate : ℚ) : List ℚ := data

/-- Modelled from the spec: lfp.decimate is code of this repository that is not
under src/.  Per spec sections 1 and 4.1 it downsamples by the integer factor
q; the model keeps every q-th sample (anti aliasing is a numeric no-op here). -/
def decimate (data : List ℚ) (q : ℕ) : List ℚ :=
  (List.range ((data.length + q - 1) / q)).map (fun i => data.getD (i * q) 0)

/-- Modelled from the spec: lfp.rms is code of this repository that is not
under src/.  Per spec sections 1 and 4.1 it computes a windowed RMS with one
output sample per full window of the given length.  The spec fixes only the
length contract and nonnegativity; the sample value is modelled as the mean of
the squares of its window, a square free surrogate for the RMS value (no
settled claim depends on these values). -/
def rms (data : List ℚ) (segment : ℤ) : List ℚ :=
  if segment ≤ 0 then []
  else
    (List.range (data.length / segment.toNat)).map
      (fun i =>
        (((data.drop (i * segment.toNat)).take segment.toNat).map (fun a => a ^ 2)).sum
          / (segment : ℚ))

/-- Conditioning pipeline plus detection, the data path of Burst.__init__,
with the error taxonomy modelled from spec sections 6 and 7: sampling rates
at most 0 fail with InvalidParameterError before any processing, and inputs
whose conditioned signal has no envelope sample fail with
InsufficientDataError; otherwise long_burst runs on the envelope. -/
def detect_bursts (data : List ℚ) (srate : ℚ) : Except DetectError (List (ℤ × ℤ)) :=
  if srate ≤ 0 then Except.error DetectError.invalidParameter
  else
    let myrecBP := band_pass data 90 250 srate
    let myrecDS := decimate myrecBP 60
    let mysrate := srate / 60
    let myrms := rms myrecDS (window_samples srate)
    if myrms.length = 0 then Except.error DetectError.insufficientData
    else
      match long_burst myrms mysrate with
      | some r => Except.ok r
      | none => Except.error DetectError.indexError

/-- State of a Burst object: its idx field (the detected intervals). -/
structure Burst where
  idx : List (ℤ × ℤ)
deriving DecidableEq

/-- Burst.__init__: with data = None the idx field is the empty list, otherwise
idx is the detection result on the data (propagating pipeline errors). -/
def Burst.init (data : Option (List ℚ)) (srate : ℚ) : Except DetectError Burst :=
  match data with
  | none => Except.ok { idx := [] }
  | some d => (detect_bursts d srate).map (fun r => { idx := r })

/-- Burst.__call__: the body is return Burst(data, srate); it builds a fresh
object and performs no assignment to self, so the pair (receiver after the
call, returned value) is (self, Burst.init data srate). -/
def Burst.call (self : Burst) (data : Option (List ℚ)) (srate : ℚ) :
    Burst × Except DetectError Burst :=
  (self, Burst.init data srate)

/-- Burst.__len__: the number of detected bursts. -/
def Burst.numBursts (b : Burst) : ℕ := b.idx.length

/-- Module level singleton: burst = Burst(srate = 30000), built with
data = None, hence an empty idx field. -/
def burst : Burst := { idx := [] }

/-- Receiver state after a sequence of calls through the same object: each call
leaves the receiver component of Burst.call. -/
def callFold (b : Burst) (args : List (Option (List ℚ) × ℚ)) : Burst :=
  args.foldl (fun c a => (Burst.call c a.1 a.2).1) b

/-- Envelope with two equal local maxima of height 1: the threshold 5 * std
exceeds 1, so its peak set is empty. -/
def ex1 : List ℚ := [0, 1, 0, 1, 0]

/-- Envelope of length 40 with one detected peak at index 20 and a
suprathreshold sample at index 25, the far end of the 250 ms window for
envelope rate 20 (w250 = 5). -/
def ex2 : List ℚ := List.replicate 20 0 ++ [100, 0, 0, 0, 0, 20] ++ List.replicate 14 0

/-- Envelope of length 40 with one detected peak at index 37, within 250 ms of
the end of the envelope for envelope rate 20 (w250 = 5), and a suprathreshold
sample at the last index. -/
def ex5 : List ℚ := List.replicate 37 0 ++ [100, 1, 20]

/-- Envelope of length 60 with two detected peaks at indices 10 and 40,
separated by a gap of 30 samples, larger than one second at envelope rate
20. -/
def ex7 : List ℚ := List.replicate 10 0 ++ [100] ++ List.replicate 29 0 ++ [100] ++ List.replicate 19 0

theorem firstIdxWhere_cons (p : ℚ → Bool) (a : ℚ) (l : List ℚ) :
    firstIdxWhere p (a :: l) =
      if p a then some 0 else (firstIdxWhere p l).map (fun k => k + 1) := rfl

theorem firstIdxWhere_cons_pos {p : ℚ → Bool} {a : ℚ} (l : List ℚ) (h : p a = true) :
    firstIdxWhere p (a :: l) = some 0 := by
  rw [firstIdxWhere_cons, h]
  rfl

theorem firstIdxWhere_cons_neg {p : ℚ → Bool} {a : ℚ} (l : List ℚ) (h : p a = false) :
    firstIdxWhere p (a :: l) = (firstIdxWhere p l).map (fun k => k + 1) := by
  rw [firstIdxWhere_cons, h]
  rfl

theorem firstIdxWhere_some_lt {p : ℚ → Bool} {l : List ℚ} {k : ℕ}
    (h : firstIdxWhere p l = some k) : k < l.length := by
  induction l generalizing k with
  | nil => exact absurd h (by unfold firstIdxWhere; exact Option.noConfusion)
  | cons a as ih =>
    rcases hpa : p a with _ | _
    · rw [firstIdxWhere_cons_neg as hpa] at h
      rcases hrec : firstIdxWhere p as with _ | m
      · rw [hrec] at h
        exact absurd h (by exact Option.noConfusion)
      · rw [hrec] at h
        have hk : m + 1 = k := Option.some.inj h
        have := ih hrec
        rw [List.length_cons]
        omega
    · rw [firstIdxWhere_cons_pos as hpa] at h
      have hk : (0 : ℕ) = k := Option.some.inj h
      rw [List.length_cons]
      omega

theorem firstIdxWhere_eq_some {p : ℚ → Bool} {l : List ℚ} {k : ℕ}
    (hk : k < l.length) (hpk : p (l.getD k 0) = true)
    (hbefore : ∀ j, j < k → p (l.getD j 0) = false) :
    firstIdxWhere p l = some k := by
  induction l generalizing k with
  | nil => simp at hk
  | cons a as ih =>
    cases k with
    | zero =>
      have ha : p a = true := by simpa using hpk
      exact firstIdxWhere_cons_pos as ha
    | succ k =>
      have ha : p a = false := hbefore 0 (Nat.succ_pos k)
      rw [firstIdxWhere_cons_neg as ha]
      have hrec : firstIdxWhere p as = some k :=
        ih (by simpa using hk) (by simpa using hpk)
          (fun j hj => by simpa using hbefore (j + 1) (by omega))
      rw [hrec]
      rfl

theorem firstIdxWhere_eq_none {p : ℚ → Bool} {l : List ℚ}
    (h : ∀ j, j < l.length → p (l.getD j 0) = false) :
    firstIdxWhere p l = none := by
  induction l with
  | nil => rfl
  | cons a as ih =>
    have ha : p a = false := by simpa using h 0 (by simp)
    rw [firstIdxWhere_cons_neg as ha]
    have hrec : firstIdxWhere p as = none :=
      ih (fun j hj => by simpa using h (j + 1) (by simpa using hj))
    rw [hrec]
    rfl

theorem sliceTake_length (a : List ℚ) (s : ℤ) (m : ℕ) :
    (sliceTake a s m).length = m := by
  induction m generalizing s with
  | zero => rfl
  | succ m ih => simp [sliceTake, ih]

theorem sliceTake_getD (a : List ℚ) (s : ℤ) (m k : ℕ) (hk : k < m) :
    (sliceTake a s m).getD k 0 = a.getD (s - (k : ℤ)).toNat 0 := by
  induction m generalizing s k with
  | zero => omega
  | succ m ih =>
    cases k with
    | zero => simp [sliceTake]
    | succ k =>
      have := ih (s - 1) k (by omega)
      simp only [sliceTake, List.getD_cons_succ]
      rw [this]
      congr 2
      omega

theorem sliceRevNorm_ge_neg_one (n i : ℤ) (hn : 0 ≤ n) : -1 ≤ sliceRevNorm n i := by
  unfold sliceRevNorm
  split <;> omega

theorem sliceRevNorm_le (n i : ℤ) (hn : 0 ≤ n) : sliceRevNorm n i ≤ n - 1 := by
  unfold sliceRevNorm
  split <;> omega

theorem sliceRevNorm_of_mem (n i : ℤ) (h0 : 0 ≤ i) (h1 : i ≤ n - 1) :
    sliceRevNorm n i = i := by
  unfold sliceRevNorm
  split <;> omega

theorem sliceRevNorm_ge_self (n i : ℤ) (hn : 0 ≤ n) (h1 : i ≤ n - 1) :
    i ≤ sliceRevNorm n i := by
  unfold sliceRevNorm
  split <;> omega

theorem sliceRevNorm_le_self (n i : ℤ) (h0 : 0 ≤ i) : sliceRevNorm n i ≤ i := by
  unfold sliceRevNorm
  split <;> omega

theorem sliceRev_length (a : List ℚ) (s e : ℤ) :
    (sliceRev a s e).length =
      (sliceRevNorm (a.length : ℤ) s - sliceRevNorm (a.length : ℤ) e).toNat := by
  simp [sliceRev, sliceTake_length]

theorem sliceRev_getD (a : List ℚ) (s e : ℤ) (k : ℕ)
    (hk : k < (sliceRevNorm (a.length : ℤ) s - sliceRevNorm (a.length : ℤ) e).toNat) :
    (sliceRev a s e).getD k 0 =
      a.getD (sliceRevNorm (a.length : ℤ) s - (k : ℤ)).toNat 0 := by
  unfold sliceRev
  exact sliceTake_getD _ _ _ _ hk

theorem refine_start_eq_some (rmsdata : List ℚ) (v : ℚ) (w x : ℤ) (k : ℕ)
    (h : firstIdxWhere (fun t => ltSqrt t v) (sliceRev rmsdata x (x - w)) = some k) :
    refine_start rmsdata v w x = x - (k : ℤ) := by
  unfold refine_start
  rw [h]

theorem refine_start_eq_none (rmsdata : List ℚ) (v : ℚ) (w x : ℤ)
    (h : firstIdxWhere (fun t => ltSqrt t v) (sliceRev rmsdata x (x - w)) = none) :
    refine_start rmsdata v w x = x := by
  unfold refine_start
  rw [h]

theorem refine_end_eq_some (rmsdata : List ℚ) (v : ℚ) (w x : ℤ) (k : ℕ)
    (h : firstIdxWhere (fun t => gtSqrt t v) (sliceRev rmsdata (x + w) x) = some k) :
    refine_end rmsdata v w x = x + (w - (k : ℤ)) := by
  unfold refine_end
  rw [h]

theorem refine_end_eq_none (rmsdata : List ℚ) (v : ℚ) (w x : ℤ)
    (h : firstIdxWhere (fun t => gtSqrt t v) (sliceRev rmsdata (x + w) x) = none) :
    refine_end rmsdata v w x = x := by
  unfold refine_end
  rw [h]

theorem refine_start_le (rmsdata : List ℚ) (v : ℚ) (w x : ℤ) :
    refine_start rmsdata v w x ≤ x := by
  rcases hm : firstIdxWhere (fun t => ltSqrt t v) (sliceRev rmsdata x (x - w)) with _ | k
  · rw [refine_start_eq_none rmsdata v w x hm]
  · rw [refine_start_eq_some rmsdata v w x k hm]
    omega

theorem refine_start_nonneg (rmsdata : List ℚ) (v : ℚ) (w x : ℤ)
    (hx : 0 ≤ x) (hxn : x < (rmsdata.length : ℤ)) :
    0 ≤ refine_start rmsdata v w x := by
  rcases hm : firstIdxWhere (fun t => ltSqrt t v) (sliceRev rmsdata x (x - w)) with _ | k
  · rw [refine_start_eq_none rmsdata v w x hm]
    exact hx
  · rw [refine_start_eq_some rmsdata v w x k hm]
    have hk := firstIdxWhere_some_lt hm
    rw [sliceRev_length] at hk
    have hs : sliceRevNorm (rmsdata.length : ℤ) x = x :=
      sliceRevNorm_of_mem _ _ hx (by omega)
    have he : -1 ≤ sliceRevNorm (rmsdata.length : ℤ) (x - w) :=
      sliceRevNorm_ge_neg_one _ _ (by omega)
    omega

theorem refine_start_ge (rmsdata : List ℚ) (v : ℚ) (w x : ℤ)
    (hx : 0 ≤ x) (hxn : x < (rmsdata.length : ℤ)) (hw : 0 ≤ w) :
    x - w ≤ refine_start rmsdata v w x := by
  rcases hm : firstIdxWhere (fun t => ltSqrt t v) (sliceRev rmsdata x (x - w)) with _ | k
  · rw [refine_start_eq_none rmsdata v w x hm]
    omega
  · rw [refine_start_eq_some rmsdata v w x k hm]
    have hk := firstIdxWhere_some_lt hm
    rw [sliceRev_length] at hk
    have hs : sliceRevNorm (rmsdata.length : ℤ) x = x :=
      sliceRevNorm_of_mem _ _ hx (by omega)
    have he : x - w ≤ sliceRevNorm (rmsdata.length : ℤ) (x - w) :=
      sliceRevNorm_ge_self _ _ (by omega) (by omega)
    omega

theorem refine_end_le (rmsdata : List ℚ) (v : ℚ) (w x : ℤ) (hw : 0 ≤ w) :
    refine_end rmsdata v w x ≤ x + w := by
  rcases hm : firstIdxWhere (fun t => gtSqrt t v) (sliceRev rmsdata (x + w) x) with _ | k
  · rw [refine_end_eq_none rmsdata v w x hm]
    omega
  · rw [refine_end_eq_some rmsdata v w x k hm]
    omega

theorem refine_end_ge (rmsdata : List ℚ) (v : ℚ) (w x : ℤ)
    (hx : 0 ≤ x) (hxn : x < (rmsdata.length : ℤ)) (hw : 0 ≤ w) :
    x ≤ refine_end rmsdata v w x := by
  rcases hm : firstIdxWhere (fun t => gtSqrt t v) (sliceRev rmsdata (x + w) x) with _ | k
  · rw [refine_end_eq_none rmsdata v w x hm]
  · rw [refine_end_eq_some rmsdata v w x k hm]
    have hk := firstIdxWhere_some_lt hm
    rw [sliceRev_length] at hk
    have he : sliceRevNorm (rmsdata.length : ℤ) x = x :=
      sliceRevNorm_of_mem _ _ hx (by omega)
    have hs2 : sliceRevNorm (rmsdata.length : ℤ) (x + w) ≤ x + w :=
      sliceRevNorm_le_self _ _ (by omega)
    omega

theorem diff_cons_cons (a b : ℤ) (l : List ℤ) :
    diff (a :: b :: l) = (b - a) :: diff (b :: l) := rfl

theorem diff_length (l : List ℤ) : (diff l).length = l.length - 1 := by
  cases l with
  | nil => rfl
  | cons a as => simp [diff, List.length_zip]

theorem diff_getD (l : List ℤ) (i : ℕ) (h : i + 1 < l.length) :
    (diff l).getD i 0 = l.getD (i + 1) 0 - l.getD i 0 := by
  induction l generalizing i with
  | nil => simp at h
  | cons a as ih =>
    cases as with
    | nil => simp at h
    | cons b bs =>
      cases i with
      | zero => rfl
      | succ i =>
        rw [diff_cons_cons]
        simp only [List.getD_cons_succ]
        exact ih i (by simpa using h)

theorem whereIdx_cons (p : ℤ → Bool) (a : ℤ) (l : List ℤ) :
    whereIdx p (a :: l) =
      if p a then 0 :: (whereIdx p l).map (fun i => i + 1)
      else (whereIdx p l).map (fun i => i + 1) := rfl

theorem whereIdx_mem_lt {p : ℤ → Bool} {l : List ℤ} {i : ℕ}
    (h : i ∈ whereIdx p l) : i < l.length := by
  induction l generalizing i with
  | nil => simp [whereIdx] at h
  | cons a as ih =>
    rw [whereIdx_cons] at h
    rcases hpa : p a with _ | _
    · rw [hpa] at h
      simp only [Bool.false_eq_true, if_false] at h
      obtain ⟨j, hj, rfl⟩ := List.mem_map.mp h
      have := ih hj
      simp only [List.length_cons]
      omega
    · rw [hpa] at h
      simp only [if_true] at h
      rcases List.mem_cons.mp h with rfl | hm
      · simp
      · obtain ⟨j, hj, rfl⟩ := List.mem_map.mp hm
        have := ih hj
        simp only [List.length_cons]
        omega

theorem whereIdx_mem_pred {p : ℤ → Bool} {l : List ℤ} {i : ℕ}
    (h : i ∈ whereIdx p l) : p (l.getD i 0) = true := by
  induction l generalizing i with
  | nil => simp [whereIdx] at h
  | cons a as ih =>
    rw [whereIdx_cons] at h
    rcases hpa : p a with _ | _
    · rw [hpa] at h
      simp only [Bool.false_eq_true, if_false] at h
      obtain ⟨j, hj, rfl⟩ := List.mem_map.mp h
      simpa using ih hj
    · rw [hpa] at h
      simp only [if_true] at h
      rcases List.mem_cons.mp h with rfl | hm
      · simpa using hpa
      · obtain ⟨j, hj, rfl⟩ := List.mem_map.mp hm
        simpa using ih hj

theorem whereIdx_pairwise (p : ℤ → Bool) (l : List ℤ) :
    List.Pairwise (· < ·) (whereIdx p l) := by
  induction l with
  | nil => exact List.Pairwise.nil
  | cons a as ih =>
    rw [whereIdx_cons]
    have hmap : List.Pairwise (· < ·) ((whereIdx p as).map (fun i => i + 1)) := by
      rw [List.pairwise_map]
      exact ih.imp (by omega)
    split
    · refine List.Pairwise.cons ?_ hmap
      intro b hb
      obtain ⟨j, hj, rfl⟩ := List.mem_map.mp hb
      omega
    · exact hmap

theorem whereIdx_length (p : ℤ → Bool) (l : List ℤ) :
    (whereIdx p l).length = l.countP p := by
  induction l with
  | nil => rfl
  | cons a as ih =>
    rw [whereIdx_cons, List.countP_cons]
    rcases hpa : p a with _ | _
    · simp [hpa, ih]
    · simp [hpa, ih]

theorem getD_map_int (l : List ℕ) (i : ℕ) :
    (l.map (fun (j : ℕ) => (j : ℤ))).getD i 0 = ((l.getD i 0 : ℕ) : ℤ) := by
  induction l generalizing i with
  | nil => simp
  | cons a as ih =>
    cases i with
    | zero => rfl
    | succ i => simpa using ih i

theorem npIndex_all_nonneg (p : List ℕ) (is : List ℤ)
    (h : ∀ i ∈ is, 0 ≤ i ∧ i < (p.length : ℤ)) :
    npIndex p is = some (is.map (fun i => p.getD i.toNat 0)) := by
  induction is with
  | nil => rfl
  | cons i is ih =>
    obtain ⟨h0, h1⟩ := h i (List.mem_cons_self i is)
    have hn : npNorm (p.length : ℤ) i = i := by
      unfold npNorm
      rw [if_neg (by omega)]
    unfold npIndex
    rw [hn, if_pos ⟨h0, h1⟩, ih (fun j hj => h j (List.mem_cons_of_mem i hj))]
    simp

theorem npIndex_append_neg_one (p : List ℕ) (is : List ℤ) (hp : p ≠ [])
    (h : ∀ i ∈ is, 0 ≤ i ∧ i < (p.length : ℤ)) :
    npIndex p (is ++ [(-1 : ℤ)]) =
      some (is.map (fun i => p.getD i.toNat 0) ++ [p.getD (p.length - 1) 0]) := by
  induction is with
  | nil =>
    have hlen : 0 < p.length := List.length_pos.mpr hp
    have hn : npNorm (p.length : ℤ) (-1) = (p.length : ℤ) - 1 := by
      unfold npNorm
      rw [if_pos (by omega)]
      omega
    show npIndex p ((-1 : ℤ) :: []) = _
    unfold npIndex
    rw [hn, if_pos (by omega)]
    have ht : ((p.length : ℤ) - 1).toNat = p.length - 1 := by omega
    rw [ht]
    rfl
  | cons i is ih =>
    obtain ⟨h0, h1⟩ := h i (List.mem_cons_self i is)
    have hn : npNorm (p.length : ℤ) i = i := by
      unfold npNorm
      rw [if_neg (by omega)]
    rw [List.cons_append]
    unfold npIndex
    rw [hn, if_pos ⟨h0, h1⟩, ih (fun j hj => h j (List.mem_cons_of_mem i hj))]
    simp

theorem npIndex_nil_head_oob (is : List ℤ) :
    npIndex [] ((0 : ℤ) :: is) = none := by
  unfold npIndex
  rw [if_neg]
  show ¬ (0 ≤ npNorm (([] : List ℕ).length : ℤ) 0 ∧ npNorm (([] : List ℕ).length : ℤ) 0 < (([] : List ℕ).length : ℤ))
  unfold npNorm
  simp

theorem plateauEndF_ge (x : List ℚ) (v : ℚ) (fuel j : ℕ) :
    j ≤ plateauEndF x v fuel j := by
  induction fuel generalizing j with
  | zero => exact le_refl j
  | succ fuel ih =>
    unfold plateauEndF
    split
    · exact le_trans (by omega) (ih (j + 1))
    · exact le_refl j

theorem plateauEndF_le (x : List ℚ) (v : ℚ) (fuel j : ℕ) (h : j ≤ x.length - 1) :
    plateauEndF x v fuel j ≤ x.length - 1 := by
  induction fuel generalizing j with
  | zero => exact h
  | succ fuel ih =>
    unfold plateauEndF
    split
    · rename_i hc
      exact ih (j + 1) (by omega)
    · exact h

theorem lmLoopF_mem_ge (x : List ℚ) (fuel : ℕ) :
    ∀ (i m : ℕ), m ∈ lmLoopF x fuel i → i ≤ m := by
  induction fuel with
  | zero =>
    intro i m hm
    simp [lmLoopF] at hm
  | succ fuel ih =>
    intro i m hm
    unfold lmLoopF at hm
    split at hm
    · rename_i h1
      split at hm
      · rename_i h2
        split at hm
        · rename_i h3
          have hpe := plateauEndF_ge x (x.getD i 0) x.length (i + 1)
          rcases List.mem_cons.mp hm with rfl | hm2
          · omega
          · have := ih _ _ hm2
            omega
        · exact le_trans (by omega) (ih _ _ hm)
      · exact le_trans (by omega) (ih _ _ hm)
    · simp at hm

theorem lmLoopF_mem_ub (x : List ℚ) (fuel : ℕ) :
    ∀ (i m : ℕ), m ∈ lmLoopF x fuel i → m + 1 < x.length := by
  induction fuel with
  | zero =>
    intro i m hm
    simp [lmLoopF] at hm
  | succ fuel ih =>
    intro i m hm
    unfold lmLoopF at hm
    split at hm
    · rename_i h1
      split at hm
      · rename_i h2
        split at hm
        · rename_i h3
          have hpe := plateauEndF_ge x (x.getD i 0) x.length (i + 1)
          have hpl := plateauEndF_le x (x.getD i 0) x.length (i + 1) (by omega)
          rcases List.mem_cons.mp hm with rfl | hm2
          · omega
          · exact ih _ _ hm2
        · exact ih _ _ hm
      · exact ih _ _ hm
    · simp at hm

theorem lmLoopF_pairwise (x : List ℚ) (fuel : ℕ) :
    ∀ i, List.Pairwise (· < ·) (lmLoopF x fuel i) := by
  induction fuel with
  | zero =>
    intro i
    simp [lmLoopF]
  | succ fuel ih =>
    intro i
    unfold lmLoopF
    split
    · rename_i h1
      split
      · rename_i h2
        split
        · rename_i h3
          refine List.Pairwise.cons ?_ (ih _)
          intro m hm
          have h4 := lmLoopF_mem_ge x fuel _ m hm
          have hpe := plateauEndF_ge x (x.getD i 0) x.length (i + 1)
          omega
        · exact ih _
      · exact ih _
    · exact List.Pairwise.nil

theorem peaks_mem_ub {rmsdata : List ℚ} {m : ℕ} (h : m ∈ peaks rmsdata) :
    m + 1 < rmsdata.length :=
  lmLoopF_mem_ub rmsdata rmsdata.length 1 m (List.mem_of_mem_filter h)

theorem peaks_pairwise (rmsdata : List ℚ) : List.Pairwise (· < ·) (peaks rmsdata) :=
  List.Pairwise.sublist (List.filter_sublist _) (lmLoopF_pairwise rmsdata rmsdata.length 1)

theorem pairwise_getD_le {l : List ℕ} (h : List.Pairwise (· < ·) l) (s i : ℕ)
    (hsi : s ≤ i) (hi : i < l.length) : l.getD s 0 ≤ l.getD i 0 := by
  rcases Nat.eq_or_lt_of_le hsi with rfl | hlt
  · exact le_refl _
  · have hs : s < l.length := by omega
    have hrel := (List.pairwise_iff_get.mp h) ⟨s, hs⟩ ⟨i, hi⟩ hlt
    rw [List.getD_eq_get l 0 hs, List.getD_eq_get l 0 hi]
    omega

theorem getD_mem {l : List ℕ} {i : ℕ} (h : i < l.length) : l.getD i 0 ∈ l := by
  rw [List.getD_eq_getElem l 0 h]
  exact List.getElem_mem h

theorem long_burst_nil (rmsdata : List ℚ) (srate : ℚ) (hp : peaks rmsdata = []) :
    long_burst rmsdata srate = none := by
  simp only [long_burst, hp]
  rw [npIndex_nil_head_oob]

theorem gapIdx_mem_lt {rmsdata : List ℚ} {srate : ℚ} {i : ℕ}
    (h : i ∈ gapIdx rmsdata srate) : i + 1 < (peaks rmsdata).length := by
  have h1 := whereIdx_mem_lt h
  rw [diff_length, List.length_map] at h1
  omega

theorem gapIdx_mem_gap {rmsdata : List ℚ} {srate : ℚ} {i : ℕ}
    (h : i ∈ gapIdx rmsdata srate) :
    (1 : ℚ) * srate <
      (((((peaks rmsdata).getD (i + 1) 0 : ℕ) : ℤ) -
        (((peaks rmsdata).getD i 0 : ℕ) : ℤ) : ℤ) : ℚ) := by
  have h1 := whereIdx_mem_pred h
  have h2 := gapIdx_mem_lt h
  rw [diff_getD _ _ (by rw [List.length_map]; omega), getD_map_int, getD_map_int] at h1
  simpa using h1

theorem long_burst_some (rmsdata : List ℚ) (srate : ℚ) (hp : peaks rmsdata ≠ []) :
    long_burst rmsdata srate =
      some ((((0 : ℤ) :: (gapIdx rmsdata srate).map (fun (i : ℕ) => (i : ℤ) + 1)).map
          (fun i => refine_start rmsdata (variance rmsdata)
            (pyInt ((0.100 : ℚ) * srate))
            (((peaks rmsdata).getD i.toNat 0 : ℕ) : ℤ))).zip
        (((gapIdx rmsdata srate).map (fun (i : ℕ) => (i : ℤ))).map
          (fun i => refine_end rmsdata (variance rmsdata)
            (pyInt ((0.250 : ℚ) * srate))
            (((peaks rmsdata).getD i.toNat 0 : ℕ) : ℤ)) ++
          [refine_end rmsdata (variance rmsdata) (pyInt ((0.250 : ℚ) * srate))
            (((peaks rmsdata).getD ((peaks rmsdata).length - 1) 0 : ℕ) : ℤ)])) := by
  have hlen : 0 < (peaks rmsdata).length := List.length_pos.mpr hp
  have h1 : ∀ j ∈ ((0 : ℤ) :: (gapIdx rmsdata srate).map (fun (i : ℕ) => (i : ℤ) + 1)),
      0 ≤ j ∧ j < ((peaks rmsdata).length : ℤ) := by
    intro j hj
    rcases List.mem_cons.mp hj with rfl | hm
    · constructor
      · exact le_refl 0
      · omega
    · obtain ⟨i, hi, rfl⟩ := List.mem_map.mp hm
      have := gapIdx_mem_lt hi
      omega
  have h2 : ∀ j ∈ (gapIdx rmsdata srate).map (fun (i : ℕ) => (i : ℤ)),
      0 ≤ j ∧ j < ((peaks rmsdata).length : ℤ) := by
    intro j hj
    obtain ⟨i, hi, rfl⟩ := List.mem_map.mp hj
    have := gapIdx_mem_lt hi
    omega
  have np1 := npIndex_all_nonneg (peaks rmsdata) _ h1
  have np2 := npIndex_append_neg_one (peaks rmsdata) _ hp h2
  simp only [long_burst]
  rw [np1, np2]
  simp only [List.map_map, List.map_append, List.map_cons, Function.comp]
  rfl

theorem chain_zip_left {l1 l2 : List ℤ} (h : List.Chain' (· < ·) l1) :
    List.Chain' (fun a b : ℤ × ℤ => a.1 < b.1) (l1.zip l2) := by
  induction l1 generalizing l2 with
  | nil => simp
  | cons a l1 ih =>
    cases l2 with
    | nil => simp
    | cons b l2 =>
      cases l1 with
      | nil => simp
      | cons c l1 =>
        cases l2 with
        | nil => simp
        | cons d l2 =>
          rw [List.zip_cons_cons, List.zip_cons_cons, List.chain'_cons]
          rw [List.chain'_cons] at h
          exact ⟨h.1, by rw [← List.zip_cons_cons]; exact ih h.2⟩

theorem refine_start_lt_refine_start (rmsdata : List ℚ) (v srate : ℚ) (hs : 0 < srate)
    (s i : ℕ) (hsi : s ≤ i) (hi : i + 1 < (peaks rmsdata).length)
    (hgap : (1 : ℚ) * srate <
      (((((peaks rmsdata).getD (i + 1) 0 : ℕ) : ℤ) -
        (((peaks rmsdata).getD i 0 : ℕ) : ℤ) : ℤ) : ℚ)) :
    refine_start rmsdata v (pyInt ((0.100 : ℚ) * srate))
        (((peaks rmsdata).getD s 0 : ℕ) : ℤ) <
      refine_start rmsdata v (pyInt ((0.100 : ℚ) * srate))
        (((peaks rmsdata).getD (i + 1) 0 : ℕ) : ℤ) := by
  have hAB : (peaks rmsdata).getD s 0 ≤ (peaks rmsdata).getD i 0 :=
    pairwise_getD_le (peaks_pairwise rmsdata) s i hsi (by omega)
  have hCub : (peaks rmsdata).getD (i + 1) 0 + 1 < rmsdata.length :=
    peaks_mem_ub (getD_mem hi)
  have hw0 : (0 : ℚ) ≤ (0.100 : ℚ) * srate := by nlinarith
  have hwdef : pyInt ((0.100 : ℚ) * srate) = ⌊(0.100 : ℚ) * srate⌋ := by
    unfold pyInt
    rw [if_neg (not_lt.mpr hw0)]
  have hw0i : 0 ≤ ⌊(0.100 : ℚ) * srate⌋ := Int.floor_nonneg.mpr hw0
  have hwle : ⌊(0.100 : ℚ) * srate⌋ ≤ ⌊srate⌋ := Int.floor_le_floor (by nlinarith)
  rw [one_mul] at hgap
  have hgap2 : ⌊srate⌋ <
      (((peaks rmsdata).getD (i + 1) 0 : ℕ) : ℤ) - (((peaks rmsdata).getD i 0 : ℕ) : ℤ) :=
    Int.floor_lt.mpr (by exact_mod_cast hgap)
  have h1 := refine_start_le rmsdata v (pyInt ((0.100 : ℚ) * srate))
    (((peaks rmsdata).getD s 0 : ℕ) : ℤ)
  have h2 := refine_start_ge rmsdata v (pyInt ((0.100 : ℚ) * srate))
    (((peaks rmsdata).getD (i + 1) 0 : ℕ) : ℤ) (by positivity) (by exact_mod_cast by omega)
    (by rw [hwdef]; exact hw0i)
  rw [hwdef] at h1 h2 ⊢
  omega

theorem chainAux (rmsdata : List ℚ) (v srate : ℚ) (hs : 0 < srate) :
    ∀ (il : List ℕ) (s : ℕ), List.Pairwise (· < ·) il →
      (∀ i ∈ il, i + 1 < (peaks rmsdata).length ∧
        (1 : ℚ) * srate <
          (((((peaks rmsdata).getD (i + 1) 0 : ℕ) : ℤ) -
            (((peaks rmsdata).getD i 0 : ℕ) : ℤ) : ℤ) : ℚ)) →
      (∀ i ∈ il, s ≤ i) →
      List.Chain' (· < ·) ((s :: il.map (fun i => i + 1)).map
        (fun t => refine_start rmsdata v (pyInt ((0.100 : ℚ) * srate))
          (((peaks rmsdata).getD t 0 : ℕ) : ℤ))) := by
  intro il
  induction il with
  | nil =>
    intro s _ _ _
    simp
  | cons i rest ih =>
    intro s hpw hprop hge
    rw [List.map_cons, List.map_cons, List.map_cons, List.chain'_cons]
    constructor
    · exact refine_start_lt_refine_start rmsdata v srate hs s i
        (hge i (List.mem_cons_self i rest))
        (hprop i (List.mem_cons_self i rest)).1
        (hprop i (List.mem_cons_self i rest)).2
    · obtain ⟨hhead, htail⟩ := List.pairwise_cons.mp hpw
      have hrec := ih (i + 1) htail
        (fun j hj => hprop j (List.mem_cons_of_mem i hj))
        (fun j hj => by
          have := hhead j hj
          omega)
      rw [List.map_cons] at hrec
      exact hrec
theorem pyInt_nonneg {q : ℚ} (h : 0 ≤ q) : 0 ≤ pyInt q := by
  unfold pyInt
  rw [if_neg (not_lt.mpr h)]
  exact Int.floor_nonneg.mpr h

/-- C1: the spec claims that an envelope with an empty peak set yields an empty
interval list and normal termination.  On the code the numpy fancy indexing
pstart = p[start] with start = [0] raises an IndexError whenever the peak array
p is empty; in the embedding this is the none result.  On the envelope ex1 no
sample reaches highthr = 5 std, the peak set is empty, and long_burst fails
instead of returning the empty list. -/
theorem C1_empty_peakset_crashes : peaks ex1 = [] ∧ long_burst ex1 500 = none :=
  ⟨by decide, by decide⟩

/-- C2 counterexample: on the envelope ex2 at envelope rate 20 the 250 ms
window is w = int(0.250 * 20) = 5 samples, the provisional end peak is x = 20,
and the farthest sample of the window, index 25 = x + w, is above lowthr, so
the first qualifying sample has 1-indexed offset k = 1 from the far end.  The
claim then predicts refined end x + (w - k) = 24, but the code returns the
interval (19, 25): the refined end is 25 = x + (w - 0), which is off by one
from the claimed formula. -/
theorem C2_counterexample :
    long_burst ex2 20 = some [(19, 25)] ∧
    gtSqrt (ex2.getD 25 0) (variance ex2) = true ∧
    ¬ ((25 : ℤ) = 20 + (5 - 1)) :=
  ⟨by decide, by decide, by decide⟩

/-- C2 (amended): the forward scan tests the samples of the w sample window
after x from the farthest sample, index x + w, stepping inward toward x; if the
first sample above lowthr sits at offset k from the far end counted 0-indexed
(so the far end sample itself has k = 0), the refined end is x + (w - k), the
index of that sample; if no sample of the window is above lowthr the end is
left unchanged.  Stated for a window lying inside the envelope. -/
theorem C2_end_scan_semantics (rmsdata : List ℚ) (v : ℚ) (w x : ℤ)
    (hx : 0 ≤ x) (hw : 0 ≤ w) (hn : x + w < (rmsdata.length : ℤ)) :
    (∀ k : ℕ, (k : ℤ) < w →
      gtSqrt (rmsdata.getD (x + w - (k : ℤ)).toNat 0) v = true →
      (∀ j : ℕ, j < k → gtSqrt (rmsdata.getD (x + w - (j : ℤ)).toNat 0) v = false) →
      refine_end rmsdata v w x = x + (w - (k : ℤ))) ∧
    ((∀ k : ℕ, (k : ℤ) < w → gtSqrt (rmsdata.getD (x + w - (k : ℤ)).toNat 0) v = false) →
      refine_end rmsdata v w x = x) := by
  have hs : sliceRevNorm (rmsdata.length : ℤ) (x + w) = x + w :=
    sliceRevNorm_of_mem _ _ (by omega) (by omega)
  have he : sliceRevNorm (rmsdata.length : ℤ) x = x :=
    sliceRevNorm_of_mem _ _ hx (by omega)
  have hlen : (sliceRev rmsdata (x + w) x).length = w.toNat := by
    rw [sliceRev_length, hs, he]
    omega
  have hget : ∀ k : ℕ, (k : ℤ) < w →
      (sliceRev rmsdata (x + w) x).getD k 0 = rmsdata.getD (x + w - (k : ℤ)).toNat 0 := by
    intro k hk
    rw [sliceRev_getD _ _ _ _ (by rw [hs, he]; omega), hs]
  constructor
  · intro k hk hfound hmin
    apply refine_end_eq_some
    apply firstIdxWhere_eq_some
    · rw [hlen]
      omega
    · rw [hget k hk]
      exact hfound
    · intro j hj
      rw [hget j (by omega)]
      exact hmin j hj
  · intro hall
    apply refine_end_eq_none
    apply firstIdxWhere_eq_none
    intro j hj
    rw [hlen] at hj
    rw [hget j (by omega)]
    exact hall j (by omega)

/-- C2 witness: the scan of the amended claim evaluated on ex2: the far end
sample qualifies at 0-indexed offset 0, and the refined end is 20 + (5 - 0). -/
theorem C2_end_scan_semantics_witness :
    refine_end ex2 (variance ex2) 5 20 = 20 + (5 - ((0 : ℕ) : ℤ)) :=
  (C2_end_scan_semantics ex2 (variance ex2) 5 20 (by norm_num) (by norm_num)
    (by decide)).1 0 (by norm_num) (by decide)
    (fun j hj => absurd hj (Nat.not_lt_zero j))

/-- C3: a sampling rate at most 0 fails with InvalidParameterError, and a
positive rate whose conditioned signal has no envelope sample fails with
InsufficientDataError; an Except error carries no partial result.  The lfp
collaborators and the error taxonomy are modelled from the spec (sections 4.1,
6 and 7) because module minibrain.lfpmanager is not under src/. -/
theorem C3_invalid_inputs_fail (data : List ℚ) (srate : ℚ) :
    (srate ≤ 0 → detect_bursts data srate = Except.error DetectError.invalidParameter) ∧
    (0 < srate →
      (rms (decimate (band_pass data 90 250 srate) 60) (window_samples srate)).length = 0 →
      detect_bursts data srate = Except.error DetectError.insufficientData) := by
  constructor
  · intro h
    simp only [detect_bursts, if_pos h]
  · intro h0 hlen
    simp only [detect_bursts]
    rw [if_neg (not_le.mpr h0), if_pos hlen]

/-- C3 witness: a negative rate fails with InvalidParameterError and a one
sample input at rate 30000 fails with InsufficientDataError. -/
theorem C3_witness :
    detect_bursts [1] (-1) = Except.error DetectError.invalidParameter ∧
    detect_bursts [0] 30000 = Except.error DetectError.insufficientData :=
  ⟨(C3_invalid_inputs_fail [1] (-1)).1 (by norm_num),
   (C3_invalid_inputs_fail [0] 30000).2 (by norm_num) (by decide)⟩

/-- C4 counterexample: at input rate 34800 the post decimation rate is 580 and
0.005 * 580 = 2.9; the code computes int(0.005 / dt) = 2 (truncation) while
the claimed formula round(0.005 * new_rate) gives 3. -/
theorem C4_counterexample : window_samples 34800 ≠ window_samples_spec 34800 := by
  decide

/-- C4 (amended): the RMS window length used by the conditioning pipeline is
the truncation int(0.005 * new_rate) (for a nonnegative rate, the floor), not
round(0.005 * new_rate). -/
theorem C4_window_is_truncation (srate : ℚ) (h : 0 ≤ srate) :
    window_samples srate = ⌊(0.005 : ℚ) * (srate / 60)⌋ := by
  unfold window_samples pyInt
  rw [one_div, div_inv_eq_mul]
  rw [if_neg (not_lt.mpr (mul_nonneg (by norm_num) (div_nonneg h (by norm_num))))]

/-- C4 witness: at the default rate 30000 the window is floor(2.5) = 2. -/
theorem C4_window_is_truncation_witness :
    window_samples 30000 = ⌊(0.005 : ℚ) * ((30000 : ℚ) / 60)⌋ :=
  C4_window_is_truncation 30000 (by norm_num)

/-- C5: the spec claims both indices of every returned interval are valid
envelope indices, also for groups whose end peak lies within 250 ms of the end
of the envelope.  On ex5 (length 40, envelope rate 20, end peak 37, 250 ms
window 5 samples) the Python slice rmsdata[42:37:-1] is clamped to start at the
last sample, but the offset arithmetic pend += w - val[0] is not, and the code
returns the interval (36, 42) whose end 42 is out of range. -/
theorem C5_end_index_out_of_range :
    long_burst ex5 20 = some [(36, 42)] ∧ ex5.length = 40 ∧
    ¬ ((42 : ℤ) < (ex5.length : ℤ)) :=
  ⟨by decide, by decide, by decide⟩

/-- C6: edge refinement never leaves its scan window: with the windows of
long_burst (int(0.100 * srate) backward for the start, int(0.250 * srate)
forward for the end) the refined start lies in [x - w100, x] and the refined
end in [x, x + w250], for any provisional boundary x inside the envelope and
any nonnegative envelope rate. -/
theorem C6_refinement_bounded (rmsdata : List ℚ) (v srate : ℚ) (x : ℤ)
    (hx : 0 ≤ x) (hxn : x < (rmsdata.length : ℤ)) (hs : 0 ≤ srate) :
    (x - pyInt ((0.100 : ℚ) * srate) ≤
        refine_start rmsdata v (pyInt ((0.100 : ℚ) * srate)) x ∧
      refine_start rmsdata v (pyInt ((0.100 : ℚ) * srate)) x ≤ x) ∧
    (x ≤ refine_end rmsdata v (pyInt ((0.250 : ℚ) * srate)) x ∧
      refine_end rmsdata v (pyInt ((0.250 : ℚ) * srate)) x ≤
        x + pyInt ((0.250 : ℚ) * srate)) := by
  have hw1 : 0 ≤ pyInt ((0.100 : ℚ) * srate) := pyInt_nonneg (by nlinarith)
  have hw2 : 0 ≤ pyInt ((0.250 : ℚ) * srate) := pyInt_nonneg (by nlinarith)
  exact ⟨⟨refine_start_ge rmsdata v _ x hx hxn hw1, refine_start_le rmsdata v _ x⟩,
    ⟨refine_end_ge rmsdata v _ x hx hxn hw2, refine_end_le rmsdata v _ x hw2⟩⟩

/-- C6 witness: the bounds evaluated at the provisional boundary 10 of ex7 at
envelope rate 20. -/
theorem C6_refinement_bounded_witness :
    (10 - pyInt ((0.100 : ℚ) * 20) ≤
        refine_start ex7 (variance ex7) (pyInt ((0.100 : ℚ) * 20)) 10 ∧
      refine_start ex7 (variance ex7) (pyInt ((0.100 : ℚ) * 20)) 10 ≤ 10) ∧
    (10 ≤ refine_end ex7 (variance ex7) (pyInt ((0.250 : ℚ) * 20)) 10 ∧
      refine_end ex7 (variance ex7) (pyInt ((0.250 : ℚ) * 20)) 10 ≤
        10 + pyInt ((0.250 : ℚ) * 20)) :=
  C6_refinement_bounded ex7 (variance ex7) 20 10 (by norm_num) (by decide) (by norm_num)

/-- C7: across the intervals of any successful detection result the start
indices are strictly increasing, also after start refinement: consecutive
selected start peaks are separated by a gap larger than srate samples, while
the backward refinement moves a start by less than int(0.100 * srate). -/
theorem C7_starts_strict_mono (rmsdata : List ℚ) (srate : ℚ) (res : List (ℤ × ℤ))
    (hs : 0 < srate) (h : long_burst rmsdata srate = some res) :
    List.Chain' (fun a b : ℤ × ℤ => a.1 < b.1) res := by
  by_cases hp : peaks rmsdata = []
  · rw [long_burst_nil rmsdata srate hp] at h
    exact absurd h (by exact Option.noConfusion)
  · rw [long_burst_some rmsdata srate hp] at h
    injection h with h2
    subst h2
    apply chain_zip_left
    have e1 : (((0 : ℤ) :: (gapIdx rmsdata srate).map (fun (i : ℕ) => (i : ℤ) + 1)).map
        (fun i => refine_start rmsdata (variance rmsdata) (pyInt ((0.100 : ℚ) * srate))
          (((peaks rmsdata).getD i.toNat 0 : ℕ) : ℤ))) =
        ((0 :: (gapIdx rmsdata srate).map (fun i => i + 1)).map
          (fun t => refine_start rmsdata (variance rmsdata) (pyInt ((0.100 : ℚ) * srate))
            (((peaks rmsdata).getD t 0 : ℕ) : ℤ))) := by
      rw [List.map_cons, List.map_cons, List.map_map, List.map_map]
      congr 1
    rw [e1]
    exact chainAux rmsdata (variance rmsdata) srate hs (gapIdx rmsdata srate) 0
      (whereIdx_pairwise _ _)
      (fun i hi => ⟨gapIdx_mem_lt hi, gapIdx_mem_gap hi⟩)
      (fun i _ => Nat.zero_le i)

/-- C7 witness: the two intervals detected on ex7 have strictly increasing
starts 9 < 39. -/
theorem C7_starts_strict_mono_witness :
    List.Chain' (fun a b : ℤ × ℤ => a.1 < b.1) [((9 : ℤ), (10 : ℤ)), ((39 : ℤ), (40 : ℤ))] :=
  C7_starts_strict_mono ex7 20 [(9, 10), (39, 40)] (by norm_num) (by decide)

/-- C8: for a nonempty peak set the detection call succeeds and returns exactly
one interval per group of peaks: the number of intervals equals the number of
gaps between consecutive peaks strictly larger than 1 * srate samples, plus
one. -/
theorem C8_interval_count (rmsdata : List ℚ) (srate : ℚ) (hp : peaks rmsdata ≠ []) :
    ∃ res, long_burst rmsdata srate = some res ∧
      res.length = large_gap_count rmsdata srate + 1 := by
  refine ⟨_, long_burst_some rmsdata srate hp, ?_⟩
  have hc : (gapIdx rmsdata srate).length = large_gap_count rmsdata srate := by
    unfold gapIdx large_gap_count
    exact whereIdx_length _ _
  rw [List.length_zip]
  simp only [List.length_map, List.length_cons, List.length_append, List.length_singleton]
  omega

/-- C8 witness: ex7 has one large gap (30 > 20 samples) between its two peaks
and the detection result has 1 + 1 = 2 intervals. -/
theorem C8_interval_count_witness :
    ∃ res, long_burst ex7 20 = some res ∧ res.length = large_gap_count ex7 20 + 1 :=
  C8_interval_count ex7 20 (by decide)

/-- C9: a refined start index is never negative; moreover for a provisional
start x smaller than the window w, with the envelope longer than w, the Python
slice rmsdata[x : x - w : -1] normalises its negative stop to n + x - w ≥ x and
is therefore empty, so the start is left unchanged even when sub threshold
samples exist between index 0 and x. -/
theorem C9_start_nonneg_and_window_noop (rmsdata : List ℚ) (v : ℚ) (w x : ℤ)
    (hx : 0 ≤ x) (hxn : x < (rmsdata.length : ℤ)) :
    0 ≤ refine_start rmsdata v w x ∧
    (x < w → w < (rmsdata.length : ℤ) →
      sliceRev rmsdata x (x - w) = [] ∧ refine_start rmsdata v w x = x) := by
  refine ⟨refine_start_nonneg rmsdata v w x hx hxn, fun hxw hwn => ?_⟩
  have hs : sliceRevNorm (rmsdata.length : ℤ) x = x :=
    sliceRevNorm_of_mem _ _ hx (by omega)
  have he : x ≤ sliceRevNorm (rmsdata.length : ℤ) (x - w) := by
    unfold sliceRevNorm
    split <;> omega
  have hempty : sliceRev rmsdata x (x - w) = [] := by
    unfold sliceRev
    have h0 : (sliceRevNorm (rmsdata.length : ℤ) x -
        sliceRevNorm (rmsdata.length : ℤ) (x - w)).toNat = 0 := by omega
    rw [h0]
    rfl
  refine ⟨hempty, ?_⟩
  apply refine_start_eq_none
  rw [hempty]
  rfl

/-- C9 witness: on ex2 with window 5 the provisional start 1 is smaller than
the window, the backward slice is empty and the start stays 1 ≥ 0. -/
theorem C9_start_nonneg_and_window_noop_witness :
    0 ≤ refine_start ex2 (variance ex2) 5 1 ∧
    sliceRev ex2 1 (1 - 5) = [] ∧ refine_start ex2 (variance ex2) 5 1 = 1 := by
  have h := C9_start_nonneg_and_window_noop ex2 (variance ex2) 5 1 (by norm_num) (by decide)
  exact ⟨h.1, (h.2 (by norm_num) (by decide)).1, (h.2 (by norm_num) (by decide)).2⟩

/-- C10: Burst.__call__ builds and returns a fresh Burst from its arguments and
leaves the receiver unchanged; the module level singleton burst, built with
data = None, has an empty idx, and its burst count stays 0 through any sequence
of calls made through it. -/
theorem C10_call_is_pure :
    (∀ (b : Burst) (d : Option (List ℚ)) (s : ℚ),
      (Burst.call b d s).1 = b ∧ (Burst.call b d s).2 = Burst.init d s) ∧
    Burst.init none 30000 = Except.ok burst ∧
    burst.idx = [] ∧
    (∀ args : List (Option (List ℚ) × ℚ),
      callFold burst args = burst ∧ Burst.numBursts (callFold burst args) = 0) := by
  have hfold : ∀ (args : List (Option (List ℚ) × ℚ)) (b : Burst), callFold b args = b := by
    intro args
    induction args with
    | nil => intro b; rfl
    | cons a as ih =>
      intro b
      show callFold b as = b
      exact ih b
  refine ⟨fun b d s => ⟨rfl, rfl⟩, rfl, rfl, fun args => ⟨hfold args burst, ?_⟩⟩
  rw [hfold args burst]
  rfl
